import Mathlib

/-!
Verification of the gbc-image-transform core pipeline (src/main.rs):
pixelation via nearest-neighbor resampling (`get_pixelated_image`),
palette extraction (`find_palette`) and nearest-color quantization
(`reduce_colors`).

The embedding models 8-bit channels as `Nat`, the `f32` color samples of
the clustering stage as `ℚ`, and fallible Rust code (including panics,
such as `u32` division by zero) as `Except`.
-/

namespace GbcImage

/-- An RGB color with 8-bit channels, `image::Rgb<u8>` in the source. -/
structure Rgb where
  r : Nat
  g : Nat
  b : Nat
deriving DecidableEq

/-- An RGBA pixel with 8-bit channels, `image::Rgba<u8>` in the source. -/
structure Pixel where
  r : Nat
  g : Nat
  b : Nat
  a : Nat
deriving DecidableEq

/-- An RGBA image: `ImageBuffer<Rgba<u8>, Vec<u8>>` in the source. The raw
byte buffer of length `width * height * 4` is modelled as a row-major list
of pixels of length `width * height`. -/
structure Image where
  width : Nat
  height : Nat
  pixels : List Pixel
deriving DecidableEq

/-- Squared Euclidean RGB distance, from `compute_squared_distance` in
src/main.rs: the channel differences are taken in `i32` (modelled as `ℤ`,
exact since channels are below 2^8 and squares below 2^31), squared,
summed, and cast back to `u32` (`Int.toNat`, exact on the nonnegative sum). -/
def compute_squared_distance (first_color second_color : Rgb) : Nat :=
  (((first_color.r : Int) - (second_color.r : Int)) ^ 2 +
   ((first_color.g : Int) - (second_color.g : Int)) ^ 2 +
   ((first_color.b : Int) - (second_color.b : Int)) ^ 2).toNat

/-- Rust's `Iterator::min_by_key`: the first element with minimal key is
returned (the fold keeps the accumulator on ties), `None` on an empty
iterator. -/
def min_by_key {α : Type} (f : α → Nat) : List α → Option α
  | [] => none
  | x :: xs => some (xs.foldl (fun acc y => if f y < f acc then y else acc) x)

/-- The per-pixel selection inside `reduce_colors` (src/main.rs lines
167-172): the palette entry of minimal squared distance to the pixel,
`Rgb([0, 0, 0])` when the palette is empty (`unwrap_or`). -/
def closestColor (pixel_rgb : Rgb) (palette : List Rgb) : Rgb :=
  (min_by_key (fun color => compute_squared_distance pixel_rgb color) palette).getD ⟨0, 0, 0⟩

/-- The body of the per-chunk closure in `reduce_colors`: replace the
first three bytes of the RGBA chunk with the closest palette color, leave
the fourth (alpha) unchanged. -/
def recolorPixel (palette : List Rgb) (p : Pixel) : Pixel :=
  let closest_color := closestColor ⟨p.r, p.g, p.b⟩ palette
  ⟨closest_color.r, closest_color.g, closest_color.b, p.a⟩

/-- `reduce_colors` from src/main.rs: every 4-byte RGBA chunk of the buffer
has its RGB replaced by the closest palette color; the alpha byte is left
unchanged. The in-place `par_chunks_mut(4).for_each` over independent
pixels is modelled as a map over the pixel list. -/
def reduce_colors (image : Image) (palette : List Rgb) : Image :=
  { image with pixels := image.pixels.map (recolorPixel palette) }

/-- The filter in `find_palette` (src/main.rs line 121), exactly as
written there: a pixel is kept iff `!transparent || pixel.alpha == 255`. -/
def sampled_pixels (transparent : Bool) (pixels : List Pixel) : List Pixel :=
  pixels.filter fun pixel => !transparent || pixel.a == 255

/-- A color sample in normalized floating-point RGB, `palette::Srgb<f32>`
in the source, modelled with exact rationals. -/
structure Srgb where
  red : ℚ
  green : ℚ
  blue : ℚ
deriving DecidableEq

/-- The `into_format::<_, f32>()` conversion: each 8-bit channel is scaled
to [0,1] by dividing by 255 (alpha is dropped by `Srgb::from_color`). -/
def pixelToSrgb (p : Pixel) : Srgb :=
  ⟨(p.r : ℚ) / 255, (p.g : ℚ) / 255, (p.b : ℚ) / 255⟩

/-- The sample sequence `rgb_pixels` built in `find_palette`: filtered
pixels converted to normalized RGB. -/
def rgb_pixels (transparent : Bool) (image : Image) : List Srgb :=
  (sampled_pixels transparent image.pixels).map pixelToSrgb

/-- Modelled from the spec: `kmeans_colors::get_kmeans` is an external
crate, not in src/. Per spec section 4.3 it runs deterministic, seeded
k-means and returns at most `k` representative centroids — at most as many
as the distinct samples allow — and never fails, returning a well-defined
(possibly empty) centroid list even on empty input. The model returns the
first `k` distinct samples, which satisfies exactly those guarantees. -/
def get_kmeans (k : Nat) (samples : List Srgb) : List Srgb :=
  samples.dedup.take k

/-- Rust's saturating `f32 as u8` cast: truncation toward zero, clamped to
[0,255]. On nonnegative inputs this is `min 255 ⌊x⌋`. -/
def f32_as_u8 (x : ℚ) : Nat :=
  min 255 (Int.toNat ⌊x⌋)

/-- The per-channel centroid conversion in `find_palette` (src/main.rs
lines 128-134): `(channel * 255f32) as u8`. -/
def convertChannel (x : ℚ) : Nat :=
  f32_as_u8 (x * 255)

/-- The conversion as the spec words it (spec section 4.3): rounding of
`channel * 255`, clipped to [0,255]. Declared only to be compared with the
source's `convertChannel`. -/
def convertChannelSpec (x : ℚ) : Nat :=
  min 255 (Int.toNat (round (x * 255)))

/-- First map over centroids in `find_palette`: normalized float RGB back
to 8-bit RGB. -/
def centroidToRgb (color : Srgb) : Rgb :=
  ⟨convertChannel color.red, convertChannel color.green, convertChannel color.blue⟩

/-- The 5-bit reduction `(channel >> 3) << 3` of src/main.rs line 137. -/
def reduce5bit (n : Nat) : Nat :=
  n / 8 * 8

/-- Second map over centroids in `find_palette`: zero the low 3 bits of
each channel. -/
def rgbReduce5bit (color : Rgb) : Rgb :=
  ⟨reduce5bit color.r, reduce5bit color.g, reduce5bit color.b⟩

/-- The palette computed by `find_palette` (src/main.rs lines 116-140):
k-means over the filtered normalized samples, centroids converted to 8-bit
and bit-depth reduced, in centroid order. -/
def find_palette_core (image : Image) (num_colors : Nat) (transparent : Bool) : List Rgb :=
  ((get_kmeans num_colors (rgb_pixels transparent image)).map centroidToRgb).map rgbReduce5bit

/-- `find_palette` itself returns `Result<Vec<Rgb<u8>>>`; its body is a
single `Ok(...)` around the pure computation (anyhow's error type is
modelled as `String`). -/
def find_palette (image : Image) (num_colors : Nat) (transparent : Bool) :
    Except String (List Rgb) :=
  Except.ok (find_palette_core image num_colors transparent)

/-- The failure mode of `get_pixelated_image` on bad sizes: in the source,
factor 0 hits a `u32` division by zero and a zero intermediate dimension
hits an empty resample target; the spec names this condition SizeError. -/
inductive SizeError where
  | sizeError
deriving DecidableEq

/-- Final output dimension resolution of `get_pixelated_image` (src/main.rs
lines 77-88): both targets given are used as-is, a single one derives the
other by aspect-ratio-preserving `f64` rounding (modelled exactly over ℚ;
`round` on nonnegative values matches Rust's round-half-away-from-zero),
neither given keeps the original dimensions. -/
def final_dimensions (orig_width orig_height : Nat)
    (target_width target_height : Option Nat) : Nat × Nat :=
  match target_width, target_height with
  | some w, some h => (w, h)
  | some w, none => (w, Int.toNat (round ((orig_height : ℚ) * w / orig_width)))
  | none, some h => (Int.toNat (round ((orig_width : ℚ) * h / orig_height)), h)
  | none, none => (orig_width, orig_height)

/-- Modelled from the spec: `image::imageops::resize` with
`FilterType::Nearest` is an external crate function, not in src/. Per spec
sections 2 and 4.1 each output pixel copies the source pixel under a
point-sampled nearest-neighbor mapping, with no averaging. Output pixel
`(x, y)` copies source pixel `(x * srcWidth / newWidth,
y * srcHeight / newHeight)`, row-major. -/
def resize (img : Image) (nwidth nheight : Nat) : Image :=
  { width := nwidth
    height := nheight
    pixels := (List.range (nheight * nwidth)).map fun i =>
      img.pixels.getD
        ((i / nwidth * img.height / nheight) * img.width + i % nwidth * img.width / nwidth)
        ⟨0, 0, 0, 0⟩ }

/-- `get_pixelated_image` (src/main.rs lines 67-100) on an already decoded
image (`open` and decoding are the out-of-scope I/O boundary): resolve the
final dimensions, downscale by the truncating integer divisions
`orig / pixelation_factor`, then upscale to the final dimensions. Factor 0
(a Rust division-by-zero panic) and a zero intermediate dimension are the
SizeError failures described by the spec; no output image exists in that
case. -/
def get_pixelated_image (image : Image) (pixelation_factor : Nat)
    (target_width target_height : Option Nat) : Except SizeError Image :=
  let fd := final_dimensions image.width image.height target_width target_height
  if pixelation_factor = 0 then
    Except.error SizeError.sizeError
  else if image.width / pixelation_factor = 0 ∨ image.height / pixelation_factor = 0 then
    Except.error SizeError.sizeError
  else
    let small := resize image (image.width / pixelation_factor)
      (image.height / pixelation_factor)
    Except.ok (resize small fd.1 fd.2)

/-! ## Helper lemmas -/

/-- The fold inside `min_by_key` lands on the first element of minimal
key: it is some index `i`, its key is minimal over the whole list, and
every strictly earlier element has a strictly larger key. -/
theorem foldl_min_spec {α : Type} (f : α → Nat) (d : α) :
    ∀ (xs : List α) (x : α), ∃ i, i < xs.length + 1 ∧
      xs.foldl (fun acc y => if f y < f acc then y else acc) x = (x :: xs).getD i d ∧
      (∀ j, j < xs.length + 1 →
        f ((x :: xs).getD i d) ≤ f ((x :: xs).getD j d)) ∧
      (∀ j, j < i → f ((x :: xs).getD i d) < f ((x :: xs).getD j d)) := by
  intro xs
  induction xs with
  | nil =>
    intro x
    refine ⟨0, by omega, rfl, ?_, by omega⟩
    intro j hj
    have hj0 : j = 0 := by simp only [List.length_nil] at hj; omega
    subst hj0
    exact le_refl _
  | cons y ys ih =>
    intro x
    by_cases hxy : f y < f x
    · obtain ⟨i, hi, heq, hmin, hfirst⟩ := ih y
      refine ⟨i + 1, by simp only [List.length_cons] at hi ⊢; omega, ?_, ?_, ?_⟩
      · calc (y :: ys).foldl (fun acc y => if f y < f acc then y else acc) x
            = ys.foldl (fun acc y => if f y < f acc then y else acc) y := by
              simp [List.foldl_cons, if_pos hxy]
        _ = (y :: ys).getD i d := heq
        _ = (x :: y :: ys).getD (i + 1) d := (List.getD_cons_succ).symm
      · intro j hj
        rw [List.getD_cons_succ]
        match j with
        | 0 =>
          rw [List.getD_cons_zero]
          exact le_trans (by simpa using hmin 0 (by omega)) (le_of_lt hxy)
        | j' + 1 =>
          rw [List.getD_cons_succ]
          exact hmin j' (by simp at hj ⊢; omega)
      · intro j hj
        rw [List.getD_cons_succ]
        match j with
        | 0 =>
          rw [List.getD_cons_zero]
          exact lt_of_le_of_lt (by simpa using hmin 0 (by omega)) hxy
        | j' + 1 =>
          rw [List.getD_cons_succ]
          exact hfirst j' (by omega)
    · have hxle : f x ≤ f y := le_of_not_lt hxy
      obtain ⟨i, hi, heq, hmin, hfirst⟩ := ih x
      have hfold : (y :: ys).foldl (fun acc y => if f y < f acc then y else acc) x
          = (x :: ys).getD i d := by
        calc (y :: ys).foldl (fun acc y => if f y < f acc then y else acc) x
            = ys.foldl (fun acc y => if f y < f acc then y else acc) x := by
              simp [List.foldl_cons, if_neg hxy]
        _ = (x :: ys).getD i d := heq
      match i with
      | 0 =>
        refine ⟨0, by omega, by simpa using hfold, ?_, by omega⟩
        intro j hj
        match j with
        | 0 => exact le_refl _
        | 1 =>
          simp only [List.getD_cons_zero, List.getD_cons_succ]
          exact le_trans (by simpa using hmin 0 (by omega)) hxle
        | j' + 2 =>
          simp only [List.getD_cons_zero, List.getD_cons_succ] at *
          exact hmin (j' + 1) (by simp at hj ⊢; omega)
      | i' + 1 =>
        refine ⟨i' + 2, by simp at hi ⊢; omega, ?_, ?_, ?_⟩
        · rw [hfold]
          simp only [List.getD_cons_succ]
        · intro j hj
          simp only [List.getD_cons_succ]
          match j with
          | 0 =>
            simp only [List.getD_cons_zero]
            exact (by simpa using hmin 0 (by omega))
          | 1 =>
            simp only [List.getD_cons_zero, List.getD_cons_succ]
            exact le_trans (by simpa using hmin 0 (by omega)) hxle
          | j' + 2 =>
            simp only [List.getD_cons_succ]
            exact hmin (j' + 1) (by simp at hj ⊢; omega)
        · intro j hj
          simp only [List.getD_cons_succ]
          match j with
          | 0 =>
            simp only [List.getD_cons_zero]
            exact (by simpa using hfirst 0 (by omega))
          | 1 =>
            simp only [List.getD_cons_zero, List.getD_cons_succ]
            exact lt_of_lt_of_le (by simpa using hfirst 0 (by omega)) hxle
          | j' + 2 =>
            simp only [List.getD_cons_succ]
            exact hfirst (j' + 1) (by omega)

/-- Restatement of `foldl_min_spec` for `closestColor` on a nonempty
palette. -/
theorem closestColor_spec (p : Rgb) (x : Rgb) (xs : List Rgb) :
    ∃ i, i < (x :: xs).length ∧
      closestColor p (x :: xs) = (x :: xs).getD i ⟨0, 0, 0⟩ ∧
      (∀ j, j < (x :: xs).length →
        compute_squared_distance p ((x :: xs).getD i ⟨0, 0, 0⟩) ≤
          compute_squared_distance p ((x :: xs).getD j ⟨0, 0, 0⟩)) ∧
      (∀ j, j < i →
        compute_squared_distance p ((x :: xs).getD i ⟨0, 0, 0⟩) <
          compute_squared_distance p ((x :: xs).getD j ⟨0, 0, 0⟩)) := by
  obtain ⟨i, hi, heq, hmin, hfirst⟩ :=
    foldl_min_spec (fun color => compute_squared_distance p color) ⟨0, 0, 0⟩ xs x
  exact ⟨i, by simpa using hi, heq, fun j hj => hmin j (by simpa using hj), hfirst⟩

theorem getD_mem {α : Type} (l : List α) (d : α) (i : Nat) (hi : i < l.length) :
    l.getD i d ∈ l := by
  rw [List.getD_eq_getElem l d hi]
  exact List.getElem_mem hi

theorem mem_getD {α : Type} (l : List α) (d : α) {z : α} (hz : z ∈ l) :
    ∃ j, j < l.length ∧ l.getD j d = z := by
  obtain ⟨j, hj, hget⟩ := List.mem_iff_getElem.mp hz
  exact ⟨j, hj, by rw [List.getD_eq_getElem l d hj, hget]⟩

theorem squared_distance_self (a : Rgb) : compute_squared_distance a a = 0 := by
  simp [compute_squared_distance]

theorem squared_distance_eq_zero {a b : Rgb}
    (h : compute_squared_distance a b = 0) : a = b := by
  unfold compute_squared_distance at h
  have h1 : (0 : Int) ≤ ((a.r : Int) - b.r) ^ 2 := sq_nonneg _
  have h2 : (0 : Int) ≤ ((a.g : Int) - b.g) ^ 2 := sq_nonneg _
  have h3 : (0 : Int) ≤ ((a.b : Int) - b.b) ^ 2 := sq_nonneg _
  have hsum : ((a.r : Int) - b.r) ^ 2 + ((a.g : Int) - b.g) ^ 2 +
      ((a.b : Int) - b.b) ^ 2 = 0 := by
    have := Int.toNat_eq_zero.mp h
    omega
  have hr : ((a.r : Int) - b.r) ^ 2 = 0 := by nlinarith
  have hg : ((a.g : Int) - b.g) ^ 2 = 0 := by nlinarith
  have hb : ((a.b : Int) - b.b) ^ 2 = 0 := by nlinarith
  have hr' : a.r = b.r := by
    have := sub_eq_zero.mp (pow_eq_zero_iff (by omega) |>.mp hr)
    exact_mod_cast this
  have hg' : a.g = b.g := by
    have := sub_eq_zero.mp (pow_eq_zero_iff (by omega) |>.mp hg)
    exact_mod_cast this
  have hb' : a.b = b.b := by
    have := sub_eq_zero.mp (pow_eq_zero_iff (by omega) |>.mp hb)
    exact_mod_cast this
  cases a
  cases b
  simp_all

/-- The selected color is a palette member (nonempty palette). -/
theorem closestColor_mem (p x : Rgb) (xs : List Rgb) :
    closestColor p (x :: xs) ∈ x :: xs := by
  obtain ⟨i, hi, heq, -, -⟩ := closestColor_spec p x xs
  rw [heq]
  exact getD_mem _ _ i hi

/-- The selected color minimizes the distance over all palette members. -/
theorem closestColor_min_mem (p x : Rgb) (xs : List Rgb) {z : Rgb} (hz : z ∈ x :: xs) :
    compute_squared_distance p (closestColor p (x :: xs)) ≤ compute_squared_distance p z := by
  obtain ⟨i, hi, heq, hmin, -⟩ := closestColor_spec p x xs
  obtain ⟨j, hj, hgd⟩ := mem_getD (x :: xs) ⟨0, 0, 0⟩ hz
  rw [heq, ← hgd]
  exact hmin j hj

/-- Re-selecting for an already selected color returns it unchanged. -/
theorem closestColor_idem (p : Rgb) (palette : List Rgb) :
    closestColor (closestColor p palette) palette = closestColor p palette := by
  cases palette with
  | nil => rfl
  | cons x xs =>
    have hmem : closestColor p (x :: xs) ∈ x :: xs := closestColor_mem p x xs
    have hle := closestColor_min_mem (closestColor p (x :: xs)) x xs hmem
    rw [squared_distance_self] at hle
    exact (squared_distance_eq_zero (Nat.le_zero.mp hle)).symm

theorem recolorPixel_idem (palette : List Rgb) (p : Pixel) :
    recolorPixel palette (recolorPixel palette p) = recolorPixel palette p := by
  have h := closestColor_idem (⟨p.r, p.g, p.b⟩ : Rgb) palette
  show (⟨(closestColor (closestColor ⟨p.r, p.g, p.b⟩ palette) palette).r,
        (closestColor (closestColor ⟨p.r, p.g, p.b⟩ palette) palette).g,
        (closestColor (closestColor ⟨p.r, p.g, p.b⟩ palette) palette).b, p.a⟩ : Pixel) =
      recolorPixel palette p
  rw [h]
  rfl

theorem map_getD_range {α : Type} (l : List α) (d : α) :
    (List.range l.length).map (fun i => l.getD i d) = l := by
  induction l with
  | nil => rfl
  | cons x xs ih =>
    rw [List.length_cons, List.range_succ_eq_map, List.map_cons, List.map_map]
    congr 1

/-- Nearest-neighbor resampling back to the source's own dimensions is the
identity on well-formed nonempty images. -/
theorem resize_self (image : Image) (hw : 0 < image.width) (hh : 0 < image.height)
    (hl : image.pixels.length = image.width * image.height) :
    resize image image.width image.height = image := by
  obtain ⟨w, h, px⟩ := image
  simp only at hw hh hl
  simp only [resize]
  congr 1
  have hfun : (fun i => px.getD ((i / w * h / h) * w + i % w * w / w) (⟨0, 0, 0, 0⟩ : Pixel))
      = fun i => px.getD i ⟨0, 0, 0, 0⟩ := by
    funext i
    rw [Nat.mul_div_cancel _ hh, Nat.mul_div_cancel _ hw, Nat.div_add_mod']
  rw [hfun, show h * w = px.length from (Nat.mul_comm h w).trans hl.symm]
  exact map_getD_range px ⟨0, 0, 0, 0⟩

/-! ## Claims -/

/-- C1: the spec and the source's own doc comments say that with
`transparent = false` every not-fully-opaque pixel is skipped by palette
sampling, and with `transparent = true` all pixels are included. The
filter actually written, `!transparent || pixel.alpha == 255`, does the
opposite: with the flag false an alpha-0 pixel is kept as a sample, and
with the flag true it is excluded. This theorem evaluates the code's
filter at that failing input. -/
theorem sampled_pixels_flag_inverted :
    sampled_pixels false [⟨10, 20, 30, 0⟩] = [⟨10, 20, 30, 0⟩] ∧
    sampled_pixels true [⟨10, 20, 30, 0⟩] = [] := by
  constructor <;> decide

/-- C2: `get_pixelated_image` fails with a SizeError exactly when the
pixelation factor is 0 or one of the truncating divisions of the original
dimensions by the factor is 0; on every other input it returns a complete
image of the resolved final dimensions, with a full pixel buffer. -/
theorem get_pixelated_image_size_error_iff (image : Image) (factor : Nat)
    (tw th : Option Nat) :
    ((factor = 0 ∨ image.width / factor = 0 ∨ image.height / factor = 0) →
      get_pixelated_image image factor tw th = Except.error SizeError.sizeError) ∧
    (factor ≠ 0 → image.width / factor ≠ 0 → image.height / factor ≠ 0 →
      ∃ out, get_pixelated_image image factor tw th = Except.ok out ∧
        out.width = (final_dimensions image.width image.height tw th).1 ∧
        out.height = (final_dimensions image.width image.height tw th).2 ∧
        out.pixels.length = out.width * out.height) := by
  constructor
  · intro hcond
    by_cases hf : factor = 0
    · simp [get_pixelated_image, hf]
    · rcases hcond with h | h | h
      · exact absurd h hf
      · simp [get_pixelated_image, hf, h]
      · simp [get_pixelated_image, hf, h]
  · intro h1 h2 h3
    simp only [get_pixelated_image]
    rw [if_neg h1, if_neg (by push_neg; exact ⟨h2, h3⟩)]
    refine ⟨_, rfl, rfl, rfl, ?_⟩
    simp [resize, Nat.mul_comm]

/-- Witness for C2: on a concrete 2×2 image, factor 0 is a SizeError and
factor 1 yields a complete 2×2 output. -/
theorem get_pixelated_image_size_error_iff_witness :
    (get_pixelated_image ⟨2, 2, [⟨1, 2, 3, 255⟩, ⟨4, 5, 6, 255⟩, ⟨7, 8, 9, 255⟩,
        ⟨10, 11, 12, 255⟩]⟩ 0 none none = Except.error SizeError.sizeError) ∧
    (∃ out, get_pixelated_image ⟨2, 2, [⟨1, 2, 3, 255⟩, ⟨4, 5, 6, 255⟩, ⟨7, 8, 9, 255⟩,
        ⟨10, 11, 12, 255⟩]⟩ 1 none none = Except.ok out ∧
      out.width = (final_dimensions 2 2 none none).1 ∧
      out.height = (final_dimensions 2 2 none none).2 ∧
      out.pixels.length = out.width * out.height) :=
  ⟨(get_pixelated_image_size_error_iff _ 0 none none).1 (Or.inl rfl),
   (get_pixelated_image_size_error_iff _ 1 none none).2
     (by decide) (by decide) (by decide)⟩

/-- C3: on a nonempty palette the quantizer selects a palette entry of
minimal squared Euclidean RGB distance to the pixel, and every entry
stored strictly earlier in the palette has strictly larger distance — so
ties are broken in favor of the first minimal entry in stored order.
`closestColor` is the selection applied by `reduce_colors` to each pixel. -/
theorem reduce_colors_selects_first_minimum (pixel_rgb : Rgb) (palette : List Rgb)
    (hne : palette ≠ []) :
    ∃ i, i < palette.length ∧
      closestColor pixel_rgb palette = palette.getD i ⟨0, 0, 0⟩ ∧
      (∀ j, j < palette.length →
        compute_squared_distance pixel_rgb (palette.getD i ⟨0, 0, 0⟩) ≤
          compute_squared_distance pixel_rgb (palette.getD j ⟨0, 0, 0⟩)) ∧
      (∀ j, j < i →
        compute_squared_distance pixel_rgb (palette.getD i ⟨0, 0, 0⟩) <
          compute_squared_distance pixel_rgb (palette.getD j ⟨0, 0, 0⟩)) := by
  cases palette with
  | nil => exact absurd rfl hne
  | cons x xs => exact closestColor_spec pixel_rgb x xs

/-- Witness for C3 on a concrete pixel and palette. -/
theorem reduce_colors_selects_first_minimum_witness :
    ∃ i, i < ([⟨1, 2, 3⟩, ⟨200, 200, 200⟩] : List Rgb).length ∧
      closestColor ⟨0, 0, 0⟩ [⟨1, 2, 3⟩, ⟨200, 200, 200⟩] =
        ([⟨1, 2, 3⟩, ⟨200, 200, 200⟩] : List Rgb).getD i ⟨0, 0, 0⟩ ∧
      (∀ j, j < ([⟨1, 2, 3⟩, ⟨200, 200, 200⟩] : List Rgb).length →
        compute_squared_distance ⟨0, 0, 0⟩
            (([⟨1, 2, 3⟩, ⟨200, 200, 200⟩] : List Rgb).getD i ⟨0, 0, 0⟩) ≤
          compute_squared_distance ⟨0, 0, 0⟩
            (([⟨1, 2, 3⟩, ⟨200, 200, 200⟩] : List Rgb).getD j ⟨0, 0, 0⟩)) ∧
      (∀ j, j < i →
        compute_squared_distance ⟨0, 0, 0⟩
            (([⟨1, 2, 3⟩, ⟨200, 200, 200⟩] : List Rgb).getD i ⟨0, 0, 0⟩) <
          compute_squared_distance ⟨0, 0, 0⟩
            (([⟨1, 2, 3⟩, ⟨200, 200, 200⟩] : List Rgb).getD j ⟨0, 0, 0⟩)) :=
  reduce_colors_selects_first_minimum ⟨0, 0, 0⟩ [⟨1, 2, 3⟩, ⟨200, 200, 200⟩] (by decide)

/-- C4 counterexample: the spec claims the centroid channel conversion is
`round(channel * 255)` clipped to [0,255], but the source computes
`(channel * 255f32) as u8`, a truncation. At channel value 1/2 (here
255/2 = 127.5 is exactly representable in `f32` and the product is exact)
the code yields 127 while the claimed rounding yields 128. -/
theorem convertChannel_not_round :
    convertChannel (1 / 2) = 127 ∧ convertChannelSpec (1 / 2) = 128 ∧
      convertChannel (1 / 2) ≠ convertChannelSpec (1 / 2) := by
  have hf : ⌊(1 / 2 : ℚ) * 255⌋ = 127 := by norm_num
  have hr : round ((1 / 2 : ℚ) * 255) = 128 := by rw [round_eq]; norm_num
  refine ⟨?_, ?_, ?_⟩
  · unfold convertChannel f32_as_u8
    rw [hf]
    decide
  · unfold convertChannelSpec
    rw [hr]
    decide
  · unfold convertChannel f32_as_u8 convertChannelSpec
    rw [hf, hr]
    decide

/-- C4 amended: `find_palette` converts each centroid channel by the
saturating truncation `(channel * 255f32) as u8`; for a normalized channel
in [0,1] this is exactly `⌊channel * 255⌋`, which lies in [0,255] (the
low-3-bit zeroing is applied afterwards). -/
theorem convertChannel_truncates (x : ℚ) (h0 : 0 ≤ x) (h1 : x ≤ 1) :
    convertChannel x = Int.toNat ⌊x * 255⌋ ∧ Int.toNat ⌊x * 255⌋ ≤ 255 := by
  have hle : (⌊x * 255⌋ : Int) ≤ 255 := by
    have hx : x * 255 ≤ 255 := by nlinarith
    calc (⌊x * 255⌋ : Int) ≤ ⌊(255 : ℚ)⌋ := Int.floor_le_floor hx
    _ = 255 := by norm_num
  have hto : Int.toNat ⌊x * 255⌋ ≤ 255 := by omega
  exact ⟨by simp [convertChannel, f32_as_u8, min_eq_right hto], hto⟩

/-- Witness for the amended C4 at channel value 1/2. -/
theorem convertChannel_truncates_witness :
    convertChannel (1 / 2) = Int.toNat ⌊(1 / 2 : ℚ) * 255⌋ ∧
      Int.toNat ⌊(1 / 2 : ℚ) * 255⌋ ≤ 255 :=
  convertChannel_truncates (1 / 2) (by norm_num) (by norm_num)

/-- C5: with an empty palette, `reduce_colors` sets every pixel's RGB to
(0,0,0) and keeps every pixel's alpha exactly as it was. -/
theorem reduce_colors_empty_palette (image : Image) :
    (reduce_colors image []).pixels = image.pixels.map fun p => ⟨0, 0, 0, p.a⟩ :=
  rfl

/-- C6: `find_palette` never fails: for every image, requested color count
and flag value, it returns `Ok` with a well-defined palette. -/
theorem find_palette_never_fails (image : Image) (num_colors : Nat) (transparent : Bool) :
    ∃ palette, find_palette image num_colors transparent = Except.ok palette :=
  ⟨_, rfl⟩

/-- C7: `reduce_colors` only rewrites RGB channels: width, height, pixel
count (hence raw buffer length) and every pixel's alpha are unchanged. -/
theorem reduce_colors_frame (image : Image) (palette : List Rgb) :
    (reduce_colors image palette).width = image.width ∧
    (reduce_colors image palette).height = image.height ∧
    (reduce_colors image palette).pixels.length = image.pixels.length ∧
    (reduce_colors image palette).pixels.map Pixel.a = image.pixels.map Pixel.a := by
  refine ⟨rfl, rfl, by simp [reduce_colors], ?_⟩
  simp [reduce_colors, List.map_map]
  intro p _
  rfl

/-- C8: quantization is idempotent against the same palette: a second
`reduce_colors` with the palette used for the first changes nothing. -/
theorem reduce_colors_idempotent (image : Image) (palette : List Rgb) :
    reduce_colors (reduce_colors image palette) palette = reduce_colors image palette := by
  obtain ⟨w, h, px⟩ := image
  simp only [reduce_colors, List.map_map]
  congr 1
  apply List.map_congr_left
  intro p _
  exact recolorPixel_idem palette p

/-- C9: pixelation with factor 1 and no explicit target dimensions is the
identity on well-formed images with positive dimensions (as every decoded
image is): downsample-then-upsample at unit ratio under nearest-neighbor
sampling returns the input pixels exactly. -/
theorem get_pixelated_image_factor_one_id (image : Image) (hw : 0 < image.width)
    (hh : 0 < image.height) (hl : image.pixels.length = image.width * image.height) :
    get_pixelated_image image 1 none none = Except.ok image := by
  simp only [get_pixelated_image, Nat.div_one, final_dimensions]
  rw [if_neg one_ne_zero, if_neg (by omega)]
  rw [resize_self image hw hh hl, resize_self image hw hh hl]

/-- Witness for C9 on a concrete 1×1 image. -/
theorem get_pixelated_image_factor_one_id_witness :
    get_pixelated_image ⟨1, 1, [⟨5, 6, 7, 8⟩]⟩ 1 none none =
      Except.ok ⟨1, 1, [⟨5, 6, 7, 8⟩]⟩ :=
  get_pixelated_image_factor_one_id ⟨1, 1, [⟨5, 6, 7, 8⟩]⟩
    (by decide) (by decide) (by decide)

/-- C10: any palette returned by `find_palette` has length at most the
requested color count. -/
theorem find_palette_length_le (image : Image) (num_colors : Nat) (transparent : Bool)
    (palette : List Rgb)
    (h : find_palette image num_colors transparent = Except.ok palette) :
    palette.length ≤ num_colors := by
  have hp : palette = find_palette_core image num_colors transparent := by
    simpa [find_palette] using h.symm
  rw [hp]
  simp [find_palette_core, get_kmeans, List.length_map, List.length_take]

/-- Witness for C10 on a concrete image. -/
theorem find_palette_length_le_witness :
    (find_palette_core ⟨1, 1, [⟨1, 2, 3, 255⟩]⟩ 2 false).length ≤ 2 :=
  find_palette_length_le ⟨1, 1, [⟨1, 2, 3, 255⟩]⟩ 2 false _ rfl

end GbcImage
